import Mathlib

/-!
Shallow embedding of the pathfinding core of the tilemap repository
(src/map/path.rs together with the pieces of src/map.rs and src/traits.rs it
uses), and proofs about it.

The coordinate type is kept generic, mirroring the generic parameter `C` of
the Rust code; the trait method adjacent_coords is passed as a function
argument, and tilemaps (Rust HashMap) are modelled as association lists with
replace-on-insert semantics.  Machine integers (isize) are modelled as Int.
The two places where the Rust code unwraps an option that its own invariants
guarantee to be present are modelled with a default node; the invariant
theorems below show the default is never consulted on reachable states.
-/

namespace Tilemap

variable {C : Type} [DecidableEq C] {T : Type} {A : Type}

/-- Embedding of struct PathfindNode from src/map/path.rs. -/
structure PathfindNode (C : Type) where
  total_cost : Int
  from_coords : Option C
deriving DecidableEq

/-- Embedding of TileMap::get_tile (HashMap::get): first entry with the key. -/
def getTile : List (C × A) → C → Option A
  | [], _ => none
  | (k, t) :: m, c => if k = c then some t else getTile m c

/-- Removes all entries with the given key. -/
def eraseKey (m : List (C × A)) (c : C) : List (C × A) :=
  m.filter (fun p => decide (p.1 ≠ c))

/-- Embedding of TileMap::insert_tile (HashMap::insert): replaces any old entry. -/
def insertTile (m : List (C × A)) (c : C) (t : A) : List (C × A) :=
  (c, t) :: eraseKey m c

/-- Key set of a tilemap. -/
def keys (m : List (C × A)) : List C := m.map Prod.fst

/-- HashSet::insert. -/
def insertSet (s : List C) (c : C) : List C := if c ∈ s then s else c :: s

/-- HashSet::remove. -/
def removeSet (s : List C) (c : C) : List C := s.filter (fun x => decide (x ≠ c))

/-- Embedding of struct Pathfinder from src/map/path.rs. -/
structure Pathfinder (C : Type) where
  coords_to_search : List C
  searched_coords : List C
  path_map : List (C × PathfindNode C)
deriving DecidableEq

/-- Embedding of Pathfinder::get_node. -/
def getNode (pm : List (C × PathfindNode C)) (c : C) : Option (PathfindNode C) :=
  getTile pm c

/-- A node lookup followed by unwrap; the Rust code panics when the node is
absent, which the invariant theorems show cannot happen on reachable states. -/
def getNodeD (pm : List (C × PathfindNode C)) (c : C) : PathfindNode C :=
  (getNode pm c).getD ⟨0, none⟩

/-- The linear scan of Pathfinder::get_next_coords: first coordinate of
coords_to_search with the (strictly) lowest total cost. -/
def selectBest (pf : Pathfinder C) : Option C :=
  pf.coords_to_search.foldl
    (fun best t =>
      match best with
      | none => some t
      | some b =>
        if (getNodeD pf.path_map t).total_cost < (getNodeD pf.path_map b).total_cost then
          some t
        else some b)
    none

/-- Embedding of Pathfinder::get_next_coords: select the cheapest frontier
coordinate and move it from coords_to_search into searched_coords. -/
def getNextCoords (pf : Pathfinder C) : Option C × Pathfinder C :=
  match selectBest pf with
  | none => (none, pf)
  | some c =>
    (some c,
      { coords_to_search := removeSet pf.coords_to_search c,
        searched_coords := insertSet pf.searched_coords c,
        path_map := pf.path_map })

/-- Embedding of Pathfinder::insert_node. -/
def insertNode (pf : Pathfinder C) (c : C) (n : PathfindNode C) : Pathfinder C :=
  { coords_to_search := insertSet pf.coords_to_search c,
    searched_coords := pf.searched_coords,
    path_map := insertTile pf.path_map c n }

/-- Embedding of Pathfinder::test_coords. -/
def testCoords (pf : Pathfinder C) (dest src : C) (cost_from_src : Int) : Pathfinder C :=
  let src_node := getNodeD pf.path_map src
  let total_cost_from_src := src_node.total_cost + cost_from_src
  match getNode pf.path_map dest with
  | some node =>
    if total_cost_from_src < node.total_cost then
      { pf with path_map := insertTile pf.path_map dest ⟨total_cost_from_src, some src⟩ }
    else pf
  | none => insertNode pf dest ⟨total_cost_from_src, some src⟩

/-- The body of the inner for-loop of Pathfinder::find_path, for one adjacent
coordinate a of the popped coordinate tc. -/
def relaxStep (grid : List (C × T)) (tc : C) (cost_from_test_coords : Int)
    (acc : Pathfinder C) (a : C) : Pathfinder C :=
  match getTile grid a with
  | some _ => testCoords acc a tc (cost_from_test_coords + 1)
  | none => acc

/-- The inner for-loop of Pathfinder::find_path: test every neighbor of the
popped coordinate tc that has a stored tile, passing cost_from_test_coords + 1. -/
def expand (grid : List (C × T)) (adj : C → List C) (pf : Pathfinder C) (tc : C)
    (cost_from_test_coords : Int) : Pathfinder C :=
  (adj tc).foldl
    (fun acc a =>
      match getTile grid a with
      | some _ => testCoords acc a tc (cost_from_test_coords + 1)
      | none => acc)
    pf

/-- Embedding of Pathfinder::current_path_from, with explicit fuel; the Rust
loop follows from_coords links, which the invariant theorems show is finite. -/
def pathFromAux (pm : List (C × PathfindNode C)) : Nat → C → Option (List C)
  | 0, _ => none
  | fuel + 1, c =>
    match (getNodeD pm c).from_coords with
    | none => some [c]
    | some c2 => (pathFromAux pm fuel c2).map (fun p => c :: p)

/-- Pathfinder::current_path_from with fuel that the termination theorem shows
is always sufficient. -/
def currentPathFrom (pm : List (C × PathfindNode C)) (c : C) : Option (List C) :=
  pathFromAux pm (pm.length + 1) c

/-- The state set up by the first four statements of Pathfinder::find_path. -/
def initPF (start : C) : Pathfinder C :=
  ⟨[start], [], [(start, ⟨0, none⟩)]⟩

/-- The while-let search loop of Pathfinder::find_path, with explicit fuel.
A none result means the fuel ran out (the termination theorem shows the fuel
used by findPath never does); some none is the Rust None, some (some p) the
Rust Some(p). -/
def findPathLoop (grid : List (C × T)) (adj : C → List C) (e : C) :
    Nat → Pathfinder C → Option (Option (List C))
  | 0, _ => none
  | fuel + 1, pf =>
    match getNextCoords pf with
    | (none, _) => some none
    | (some tc, pf1) =>
      let cost_from_test_coords := (getNodeD pf1.path_map tc).total_cost
      if tc = e then (currentPathFrom pf1.path_map e).map some
      else findPathLoop grid adj e fuel (expand grid adj pf1 tc cost_from_test_coords)

/-- Embedding of Pathfinder::find_path. -/
def findPath (grid : List (C × T)) (adj : C → List C) (start e : C) : Option (List C) :=
  (findPathLoop grid adj e (grid.length + 2) (initPF start)).getD none

/-- One iteration of the search loop, ignoring the early-return test; used to
talk about intermediate states of a run. -/
def stepOnce (grid : List (C × T)) (adj : C → List C) (pf : Pathfinder C) : Pathfinder C :=
  match getNextCoords pf with
  | (none, _) => pf
  | (some tc, pf1) => expand grid adj pf1 tc ((getNodeD pf1.path_map tc).total_cost)

/-- The Pathfinder states that occur during a run of find_path. -/
inductive ReachState (grid : List (C × T)) (adj : C → List C) (start : C) :
    Pathfinder C → Prop
  | init : ReachState grid adj start (initPF start)
  | step {pf : Pathfinder C} {tc : C} {pf1 : Pathfinder C} :
      ReachState grid adj start pf → getNextCoords pf = (some tc, pf1) →
      ReachState grid adj start (expand grid adj pf1 tc ((getNodeD pf1.path_map tc).total_cost))

/-- A coordinate is reachable in n hops: a walk from start whose every
coordinate after start carries a stored tile, moving along adjacent_coords. -/
inductive HopReach (grid : List (C × T)) (adj : C → List C) (start : C) : Nat → C → Prop
  | refl : HopReach grid adj start 0 start
  | step {n : Nat} {u c : C} : HopReach grid adj start n u → c ∈ adj u → c ∈ keys grid →
      HopReach grid adj start (n + 1) c

/-- The accumulated total cost the code attaches to walks: each hop from a node
whose accumulated value is k yields 2 * k + 1 at the destination. -/
inductive CostReach (grid : List (C × T)) (adj : C → List C) (start : C) : Int → C → Prop
  | refl : CostReach grid adj start 0 start
  | step {k : Int} {u c : C} : CostReach grid adj start k u → c ∈ adj u → c ∈ keys grid →
      CostReach grid adj start (2 * k + 1) c

/-- Cost of a walk in the cost model stated by the spec: each hop onto a stored
tile adds that destination tile's pathfind_cost, the start tile adding nothing. -/
inductive WalkCost (grid : List (C × T)) (adj : C → List C) (tileCost : T → Int) (start : C) :
    Int → C → Prop
  | refl : WalkCost grid adj tileCost start 0 start
  | step {k : Int} {u c : C} {t : T} : WalkCost grid adj tileCost start k u → c ∈ adj u →
      getTile grid c = some t → WalkCost grid adj tileCost start (k + tileCost t) c

/-- Total cost of a returned path (listed destination first, start last) in the
cost model stated by the spec: the pathfind_cost of every element but the last. -/
def pathWeight (grid : List (C × T)) (tileCost : T → Int) : List C → Int
  | [] => 0
  | [_] => 0
  | c :: rest =>
    (match getTile grid c with
     | some t => tileCost t
     | none => 0) + pathWeight grid tileCost rest

/-- The accumulated value the code assigns to a walk of n hops. -/
def hopCost (n : Nat) : Int := 2 ^ n - 1

/-- Lists of coordinates of the shape produced by path reconstruction: head is
the final coordinate, last is start, consecutive elements are adjacent, and
every element but start carries a stored tile. -/
inductive PathTo (grid : List (C × T)) (adj : C → List C) (start : C) : List C → C → Prop
  | base : PathTo grid adj start [start] start
  | cons {p : List C} {b c : C} : PathTo grid adj start p b → c ∈ adj b → c ∈ keys grid →
      PathTo grid adj start (c :: p) c

/-- Every stored neighbor of u has a node whose cost is at most the value the
code would relax it to from u. -/
def RelaxedAt (grid : List (C × T)) (adj : C → List C) (pf : Pathfinder C) (u : C) : Prop :=
  ∀ c ∈ adj u, c ∈ keys grid →
    ∃ n, getNode pf.path_map c = some n ∧
      n.total_cost ≤ 2 * (getNodeD pf.path_map u).total_cost + 1

/-- Invariant on the node map alone. -/
structure PmInv (grid : List (C × T)) (adj : C → List C) (start : C)
    (pm : List (C × PathfindNode C)) : Prop where
  start_node : getNode pm start = some ⟨0, none⟩
  nonneg : ∀ c n, getNode pm c = some n → 0 ≤ n.total_cost
  parent : ∀ c n, getNode pm c = some n → c ≠ start →
    ∃ p np, n.from_coords = some p ∧ getNode pm p = some np ∧
      np.total_cost < n.total_cost ∧ c ∈ adj p ∧ c ∈ keys grid
  reach : ∀ c n, getNode pm c = some n → CostReach grid adj start n.total_cost c

/-- Invariant on a whole Pathfinder state, except for the relaxation facts. -/
structure Base (grid : List (C × T)) (adj : C → List C) (start : C)
    (pf : Pathfinder C) : Prop where
  pm_inv : PmInv grid adj start pf.path_map
  nodup_cts : pf.coords_to_search.Nodup
  nodup_searched : pf.searched_coords.Nodup
  cts_sub : ∀ c ∈ pf.coords_to_search, c ∈ keys pf.path_map
  searched_sub : ∀ c ∈ pf.searched_coords, c ∈ keys pf.path_map
  keys_cover : ∀ c ∈ keys pf.path_map, c ∈ pf.coords_to_search ∨ c ∈ pf.searched_coords
  disj : ∀ c ∈ pf.searched_coords, c ∉ pf.coords_to_search
  in_grid : ∀ c ∈ keys pf.path_map, c = start ∨ c ∈ keys grid
  start_mem : start ∈ keys pf.path_map
  searched_min : ∀ c ∈ pf.searched_coords, ∀ n, getNode pf.path_map c = some n →
    ∀ k, CostReach grid adj start k c → n.total_cost ≤ k
  searched_le : ∀ u ∈ pf.searched_coords, ∀ c ∈ pf.coords_to_search,
    (getNodeD pf.path_map u).total_cost ≤ (getNodeD pf.path_map c).total_cost

/-- Full loop invariant of find_path. -/
structure Inv (grid : List (C × T)) (adj : C → List C) (start : C)
    (pf : Pathfinder C) : Prop where
  base : Base grid adj start pf
  relaxed : ∀ u ∈ pf.searched_coords, RelaxedAt grid adj pf u

/-- Invariant holding while the neighbors of the just-popped coordinate tc,
whose popped cost is k0, are being relaxed. -/
structure PreExpand (grid : List (C × T)) (adj : C → List C) (start : C) (tc : C)
    (k0 : Int) (pf : Pathfinder C) : Prop where
  base : Base grid adj start pf
  tc_searched : tc ∈ pf.searched_coords
  relaxed_rest : ∀ u ∈ pf.searched_coords, u ≠ tc → RelaxedAt grid adj pf u
  pin : ∃ n, getNode pf.path_map tc = some n ∧ n.total_cost = k0
  searched_le_k0 : ∀ u ∈ pf.searched_coords, (getNodeD pf.path_map u).total_cost ≤ k0

/-- Number of node-map entries of cost strictly below k. -/
def countLT (pm : List (C × PathfindNode C)) (k : Int) : Nat :=
  (pm.filter (fun p => decide (p.2.total_cost < k))).length

/-- Number of coordinates the search may still pop. -/
def potential (grid : List (C × T)) (start : C) (pf : Pathfinder C) : Nat :=
  (((keys grid).toFinset ∪ {start}) \ pf.searched_coords.toFinset).card

/-- A line-shaped coordinate system used for concrete runs. -/
def lineAdj (n : Int) : List Int := [n - 1, n + 1]

/-- Two cost-1 tiles next to the origin on the line. -/
def lineGrid : List (Int × Int) := [(1, 1), (2, 1)]

/-- A single cost-1 tile next to the origin on the line. -/
def lineGrid1 : List (Int × Int) := [(1, 1)]

/-- A six-vertex coordinate system with two routes from 0 to 5: a two-hop route
through 1 and a four-hop route through 2, 3, 4. -/
def sixAdj : Int → List Int := fun n =>
  if n = 0 then [1, 2]
  else if n = 1 then [0, 5]
  else if n = 2 then [0, 3]
  else if n = 3 then [2, 4]
  else if n = 4 then [3, 5]
  else if n = 5 then [1, 4]
  else []

/-- Tiles for the six-vertex system: the short route crosses the cost-10 tile
at 1, the long route crosses the cost-1 tiles at 2, 3, 4, ending at 5. -/
def sixGrid : List (Int × Int) := [(1, 10), (2, 1), (3, 1), (4, 1), (5, 1)]

/-! Lemmas about the tilemap and set primitives. -/

theorem getTile_mem {m : List (C × A)} {c : C} {t : A} (h : getTile m c = some t) :
    (c, t) ∈ m := by
  induction m with
  | nil => simp [getTile] at h
  | cons p m ih =>
    obtain ⟨k, v⟩ := p
    by_cases hk : k = c
    · subst hk
      simp [getTile] at h
      simp [h]
    · simp [getTile, hk] at h
      exact List.mem_cons_of_mem _ (ih h)

theorem mem_keys_iff {m : List (C × A)} {c : C} : c ∈ keys m ↔ (getTile m c).isSome := by
  induction m with
  | nil => simp [keys, getTile]
  | cons p m ih =>
    obtain ⟨k, v⟩ := p
    by_cases hk : k = c
    · subst hk
      simp [keys, getTile]
    · simp [keys, getTile, hk, Ne.symm hk] at ih ⊢
      exact ih

theorem mem_keys_of_getTile {m : List (C × A)} {c : C} {t : A} (h : getTile m c = some t) :
    c ∈ keys m := by
  rw [mem_keys_iff, h]
  rfl

theorem getTile_isSome_of_mem {m : List (C × A)} {c : C} (h : c ∈ keys m) :
    ∃ t, getTile m c = some t := by
  rw [mem_keys_iff] at h
  exact Option.isSome_iff_exists.mp h

theorem getTile_eq_none_of_not_mem {m : List (C × A)} {c : C} (h : c ∉ keys m) :
    getTile m c = none := by
  cases hg : getTile m c with
  | none => rfl
  | some t => exact absurd (mem_keys_of_getTile hg) h

theorem keys_eraseKey (m : List (C × A)) (c : C) :
    keys (eraseKey m c) = (keys m).filter (fun x => decide (x ≠ c)) := by
  induction m with
  | nil => rfl
  | cons p m ih =>
    by_cases hk : p.1 = c
    · simp [eraseKey, keys, hk, List.filter] at ih ⊢
      simpa [eraseKey, keys] using ih
    · simp [eraseKey, keys, List.filter, hk] at ih ⊢
      simpa [eraseKey, keys] using ih

theorem getTile_eraseKey_ne {m : List (C × A)} {c x : C} (h : x ≠ c) :
    getTile (eraseKey m c) x = getTile m x := by
  induction m with
  | nil => rfl
  | cons p m ih =>
    obtain ⟨k, v⟩ := p
    by_cases hk : k = c
    · subst hk
      simp [eraseKey, getTile, Ne.symm h, ih]
      simpa [eraseKey] using ih
    · by_cases hx : k = x
      · subst hx
        simp [eraseKey, getTile, hk]
      · simp [eraseKey, getTile, hk, hx] at ih ⊢
        simpa [eraseKey] using ih

theorem getTile_insertTile_self (m : List (C × A)) (c : C) (t : A) :
    getTile (insertTile m c t) c = some t := by
  simp [insertTile, getTile]

theorem getTile_insertTile_ne {m : List (C × A)} {c x : C} (t : A) (h : x ≠ c) :
    getTile (insertTile m c t) x = getTile m x := by
  simp [insertTile, getTile, Ne.symm h]
  exact getTile_eraseKey_ne h

theorem mem_keys_insertTile {m : List (C × A)} {c x : C} {t : A} :
    x ∈ keys (insertTile m c t) ↔ x = c ∨ x ∈ keys m := by
  constructor
  · intro h
    by_cases hx : x = c
    · exact Or.inl hx
    · right
      rw [mem_keys_iff] at h ⊢
      rwa [getTile_insertTile_ne t hx] at h
  · intro h
    rcases h with h | h
    · subst h
      exact mem_keys_of_getTile (getTile_insertTile_self m x t)
    · by_cases hx : x = c
      · subst hx
        exact mem_keys_of_getTile (getTile_insertTile_self m x t)
      · rw [mem_keys_iff, getTile_insertTile_ne t hx]
        rwa [mem_keys_iff] at h

theorem nodup_keys_insertTile {m : List (C × A)} {c : C} {t : A}
    (h : (keys m).Nodup) : (keys (insertTile m c t)).Nodup := by
  have hk : keys (insertTile m c t) = c :: keys (eraseKey m c) := rfl
  rw [hk, keys_eraseKey]
  refine List.Nodup.cons ?_ (List.Nodup.filter _ h)
  intro hc
  have := List.of_mem_filter hc
  simp at this

theorem mem_insertSet {s : List C} {c x : C} : x ∈ insertSet s c ↔ x = c ∨ x ∈ s := by
  unfold insertSet
  by_cases h : c ∈ s
  · simp [h]
    intro hx
    subst hx
    exact h
  · simp [h]

theorem mem_removeSet {s : List C} {c x : C} : x ∈ removeSet s c ↔ x ∈ s ∧ x ≠ c := by
  simp [removeSet, List.mem_filter]

theorem nodup_insertSet {s : List C} {c : C} (h : s.Nodup) : (insertSet s c).Nodup := by
  unfold insertSet
  by_cases hc : c ∈ s
  · simpa [hc]
  · simpa [hc] using List.Nodup.cons hc h

theorem nodup_removeSet {s : List C} {c : C} (h : s.Nodup) : (removeSet s c).Nodup :=
  List.Nodup.filter _ h

theorem getNodeD_eq {pm : List (C × PathfindNode C)} {c : C} {n : PathfindNode C}
    (h : getNode pm c = some n) : getNodeD pm c = n := by
  simp [getNodeD, h]

/-! Lemmas about frontier selection. -/

theorem selectBest_go {pm : List (C × PathfindNode C)} :
    ∀ (l : List C) (acc : Option C) (b : C),
      l.foldl
        (fun best t =>
          match best with
          | none => some t
          | some bb =>
            if (getNodeD pm t).total_cost < (getNodeD pm bb).total_cost then some t
            else some bb)
        acc = some b →
      (b ∈ l ∨ acc = some b) ∧
        (∀ x ∈ l, (getNodeD pm b).total_cost ≤ (getNodeD pm x).total_cost) ∧
        (∀ a, acc = some a → (getNodeD pm b).total_cost ≤ (getNodeD pm a).total_cost) := by
  intro l
  induction l with
  | nil =>
    intro acc b h
    simp at h
    subst h
    exact ⟨Or.inr rfl, by simp, fun a ha => by rw [Option.some_inj] at ha; rw [ha]⟩
  | cons t l ih =>
    intro acc b h
    simp only [List.foldl_cons] at h
    cases acc with
    | none =>
      obtain ⟨hmem, hmin, hacc⟩ := ih (some t) b h
      refine ⟨?_, ?_, ?_⟩
      · rcases hmem with hm | hm
        · exact Or.inl (List.mem_cons_of_mem _ hm)
        · exact Or.inl (by rw [Option.some_inj] at hm; rw [hm]; exact List.mem_cons_self _ _)
      · intro x hx
        rcases List.mem_cons.mp hx with hx | hx
        · rw [hx]
          exact hacc t rfl
        · exact hmin x hx
      · intro a ha
        cases ha
    | some a0 =>
      by_cases hlt : (getNodeD pm t).total_cost < (getNodeD pm a0).total_cost
      · simp only [hlt, if_pos] at h
        obtain ⟨hmem, hmin, hacc⟩ := ih (some t) b h
        refine ⟨?_, ?_, ?_⟩
        · rcases hmem with hm | hm
          · exact Or.inl (List.mem_cons_of_mem _ hm)
          · exact Or.inl (by rw [Option.some_inj] at hm; rw [hm]; exact List.mem_cons_self _ _)
        · intro x hx
          rcases List.mem_cons.mp hx with hx | hx
          · rw [hx]
            exact hacc t rfl
          · exact hmin x hx
        · intro a ha
          rw [Option.some_inj] at ha
          subst ha
          exact le_of_lt (lt_of_le_of_lt (hacc t rfl) hlt)
      · simp only [hlt, if_neg, ite_false] at h
        obtain ⟨hmem, hmin, hacc⟩ := ih (some a0) b h
        refine ⟨?_, ?_, ?_⟩
        · rcases hmem with hm | hm
          · exact Or.inl (List.mem_cons_of_mem _ hm)
          · exact Or.inr hm
        · intro x hx
          rcases List.mem_cons.mp hx with hx | hx
          · subst hx
            exact le_trans (hacc a0 rfl) (le_of_not_lt hlt)
          · exact hmin x hx
        · exact hacc

theorem selectBest_go_ne {pm : List (C × PathfindNode C)} :
    ∀ (l : List C) (b : C),
      l.foldl
        (fun best t =>
          match best with
          | none => some t
          | some bb =>
            if (getNodeD pm t).total_cost < (getNodeD pm bb).total_cost then some t
            else some bb)
        (some b) ≠ none := by
  intro l
  induction l with
  | nil => intro b h; cases h
  | cons t l ih =>
    intro b
    simp only [List.foldl_cons]
    by_cases hlt : (getNodeD pm t).total_cost < (getNodeD pm b).total_cost
    · simp only [hlt, if_pos]
      exact ih t
    · simp only [hlt, if_neg, ite_false]
      exact ih b

theorem selectBest_eq_none {pf : Pathfinder C} (h : selectBest pf = none) :
    pf.coords_to_search = [] := by
  unfold selectBest at h
  cases hl : pf.coords_to_search with
  | nil => rfl
  | cons t l =>
    rw [hl] at h
    simp only [List.foldl_cons] at h
    exact absurd h (selectBest_go_ne l t)

theorem selectBest_spec {pf : Pathfinder C} {b : C} (h : selectBest pf = some b) :
    b ∈ pf.coords_to_search ∧
      ∀ x ∈ pf.coords_to_search,
        (getNodeD pf.path_map b).total_cost ≤ (getNodeD pf.path_map x).total_cost := by
  unfold selectBest at h
  obtain ⟨hmem, hmin, _⟩ := selectBest_go pf.coords_to_search none b h
  refine ⟨?_, hmin⟩
  rcases hmem with hm | hm
  · exact hm
  · cases hm

theorem getNextCoords_none {pf pf' : Pathfinder C}
    (h : getNextCoords pf = (none, pf')) : pf' = pf ∧ pf.coords_to_search = [] := by
  unfold getNextCoords at h
  cases hs : selectBest pf with
  | none =>
    rw [hs] at h
    exact ⟨(Prod.mk.injEq _ _ _ _ ▸ h).2.symm, selectBest_eq_none hs⟩
  | some c =>
    rw [hs] at h
    simp at h

theorem getNextCoords_some {pf pf1 : Pathfinder C} {tc : C}
    (h : getNextCoords pf = (some tc, pf1)) :
    tc ∈ pf.coords_to_search ∧
      (∀ x ∈ pf.coords_to_search,
        (getNodeD pf.path_map tc).total_cost ≤ (getNodeD pf.path_map x).total_cost) ∧
      pf1 = ⟨removeSet pf.coords_to_search tc, insertSet pf.searched_coords tc,
        pf.path_map⟩ := by
  unfold getNextCoords at h
  cases hs : selectBest pf with
  | none =>
    rw [hs] at h
    simp at h
  | some c =>
    rw [hs] at h
    simp only [Prod.mk.injEq, Option.some_inj] at h
    obtain ⟨hc, hpf⟩ := h
    subst hc
    obtain ⟨hmem, hmin⟩ := selectBest_spec hs
    exact ⟨hmem, hmin, hpf.symm⟩

/-! Basic facts about test_coords and the relaxation loop. -/

theorem expand_eq (grid : List (C × T)) (adj : C → List C) (pf : Pathfinder C) (tc : C)
    (k : Int) : expand grid adj pf tc k = (adj tc).foldl (relaxStep grid tc k) pf := by
  unfold expand relaxStep
  rfl

theorem testCoords_eq_of_none {pf : Pathfinder C} {d s : C} {k : Int}
    (h : getNode pf.path_map d = none) :
    testCoords pf d s k = insertNode pf d ⟨(getNodeD pf.path_map s).total_cost + k, some s⟩ := by
  unfold testCoords
  rw [h]

theorem testCoords_eq_of_lt {pf : Pathfinder C} {d s : C} {k : Int} {node : PathfindNode C}
    (h : getNode pf.path_map d = some node)
    (hlt : (getNodeD pf.path_map s).total_cost + k < node.total_cost) :
    testCoords pf d s k =
      { pf with path_map :=
          insertTile pf.path_map d ⟨(getNodeD pf.path_map s).total_cost + k, some s⟩ } := by
  unfold testCoords
  rw [h]
  simp [hlt]

theorem testCoords_eq_of_ge {pf : Pathfinder C} {d s : C} {k : Int} {node : PathfindNode C}
    (h : getNode pf.path_map d = some node)
    (hge : ¬ (getNodeD pf.path_map s).total_cost + k < node.total_cost) :
    testCoords pf d s k = pf := by
  unfold testCoords
  rw [h]
  simp [hge]

theorem testCoords_searched (pf : Pathfinder C) (d s : C) (k : Int) :
    (testCoords pf d s k).searched_coords = pf.searched_coords := by
  cases h : getNode pf.path_map d with
  | none => rw [testCoords_eq_of_none h]; rfl
  | some node =>
    by_cases hlt : (getNodeD pf.path_map s).total_cost + k < node.total_cost
    · rw [testCoords_eq_of_lt h hlt]
    · rw [testCoords_eq_of_ge h hlt]

theorem testCoords_mono {pf : Pathfinder C} (d s : C) (k : Int) {c : C} {n : PathfindNode C}
    (h : getNode pf.path_map c = some n) :
    ∃ n', getNode (testCoords pf d s k).path_map c = some n' ∧
      n'.total_cost ≤ n.total_cost ∧ (c ≠ d → n' = n) := by
  cases hd : getNode pf.path_map d with
  | none =>
    rw [testCoords_eq_of_none hd]
    have hcd : c ≠ d := fun hc => by rw [hc, hd] at h; cases h
    refine ⟨n, ?_, le_refl _, fun _ => rfl⟩
    show getTile (insertTile pf.path_map d _) c = some n
    rw [getTile_insertTile_ne _ hcd]
    exact h
  | some node =>
    by_cases hlt : (getNodeD pf.path_map s).total_cost + k < node.total_cost
    · rw [testCoords_eq_of_lt hd hlt]
      by_cases hcd : c = d
      · subst hcd
        rw [hd] at h
        rw [Option.some_inj] at h
        subst h
        exact ⟨⟨(getNodeD pf.path_map s).total_cost + k, some s⟩,
          getTile_insertTile_self _ _ _, le_of_lt hlt, fun hne => absurd rfl hne⟩
      · refine ⟨n, ?_, le_refl _, fun _ => rfl⟩
        show getTile (insertTile pf.path_map d _) c = some n
        rw [getTile_insertTile_ne _ hcd]
        exact h
    · rw [testCoords_eq_of_ge hd hlt]
      exact ⟨n, h, le_refl _, fun _ => rfl⟩

theorem testCoords_keys_mono {pf : Pathfinder C} {d s : C} {k : Int} {c : C}
    (h : c ∈ keys pf.path_map) : c ∈ keys (testCoords pf d s k).path_map := by
  obtain ⟨n, hn⟩ := getTile_isSome_of_mem h
  obtain ⟨n', hn', _⟩ := testCoords_mono d s k hn
  exact mem_keys_of_getTile hn'

theorem testCoords_keys_sub {pf : Pathfinder C} {d s : C} {k : Int} {c : C}
    (h : c ∈ keys (testCoords pf d s k).path_map) : c = d ∨ c ∈ keys pf.path_map := by
  cases hd : getNode pf.path_map d with
  | none =>
    rw [testCoords_eq_of_none hd] at h
    exact mem_keys_insertTile.mp h
  | some node =>
    by_cases hlt : (getNodeD pf.path_map s).total_cost + k < node.total_cost
    · rw [testCoords_eq_of_lt hd hlt] at h
      exact mem_keys_insertTile.mp h
    · rw [testCoords_eq_of_ge hd hlt] at h
      exact Or.inr h

theorem testCoords_cts_mono {pf : Pathfinder C} {d s : C} {k : Int} {c : C}
    (h : c ∈ pf.coords_to_search) : c ∈ (testCoords pf d s k).coords_to_search := by
  cases hd : getNode pf.path_map d with
  | none =>
    rw [testCoords_eq_of_none hd]
    exact mem_insertSet.mpr (Or.inr h)
  | some node =>
    by_cases hlt : (getNodeD pf.path_map s).total_cost + k < node.total_cost
    · rw [testCoords_eq_of_lt hd hlt]
      exact h
    · rw [testCoords_eq_of_ge hd hlt]
      exact h

theorem testCoords_cts_sub {pf : Pathfinder C} {d s : C} {k : Int} {c : C}
    (h : c ∈ (testCoords pf d s k).coords_to_search) :
    c ∈ pf.coords_to_search ∨ (c = d ∧ getNode pf.path_map d = none) := by
  cases hd : getNode pf.path_map d with
  | none =>
    rw [testCoords_eq_of_none hd] at h
    rcases mem_insertSet.mp h with h | h
    · exact Or.inr ⟨h, rfl⟩
    · exact Or.inl h
  | some node =>
    by_cases hlt : (getNodeD pf.path_map s).total_cost + k < node.total_cost
    · rw [testCoords_eq_of_lt hd hlt] at h
      exact Or.inl h
    · rw [testCoords_eq_of_ge hd hlt] at h
      exact Or.inl h

theorem foldl_relax_searched (grid : List (C × T)) (tc : C) (k : Int) :
    ∀ (l : List C) (pf : Pathfinder C),
      (l.foldl (relaxStep grid tc k) pf).searched_coords = pf.searched_coords := by
  intro l
  induction l with
  | nil => intro pf; rfl
  | cons a l ih =>
    intro pf
    rw [List.foldl_cons, ih]
    unfold relaxStep
    cases getTile grid a with
    | none => rfl
    | some t => exact testCoords_searched pf a tc (k + 1)

theorem foldl_relax_mono (grid : List (C × T)) (tc : C) (k : Int) :
    ∀ (l : List C) (pf : Pathfinder C) (c : C) (n : PathfindNode C),
      getNode pf.path_map c = some n →
      ∃ n', getNode ((l.foldl (relaxStep grid tc k) pf).path_map) c = some n' ∧
        n'.total_cost ≤ n.total_cost := by
  intro l
  induction l with
  | nil => intro pf c n h; exact ⟨n, h, le_refl _⟩
  | cons a l ih =>
    intro pf c n h
    rw [List.foldl_cons]
    unfold relaxStep
    cases getTile grid a with
    | none => exact ih pf c n h
    | some t =>
      obtain ⟨n1, hn1, hle1, _⟩ := testCoords_mono a tc (k + 1) h
      obtain ⟨n2, hn2, hle2⟩ := ih _ c n1 hn1
      exact ⟨n2, hn2, le_trans hle2 hle1⟩

theorem foldl_relax_keys_mono (grid : List (C × T)) (tc : C) (k : Int)
    {l : List C} {pf : Pathfinder C} {c : C} (h : c ∈ keys pf.path_map) :
    c ∈ keys ((l.foldl (relaxStep grid tc k) pf).path_map) := by
  obtain ⟨n, hn⟩ := getTile_isSome_of_mem h
  obtain ⟨n', hn', _⟩ := foldl_relax_mono grid tc k l pf c n hn
  exact mem_keys_of_getTile hn'

theorem foldl_relax_cts_sub (grid : List (C × T)) (tc : C) (k : Int) :
    ∀ (l : List C) (pf : Pathfinder C) (c : C),
      c ∈ (l.foldl (relaxStep grid tc k) pf).coords_to_search →
      c ∈ pf.coords_to_search ∨ c ∉ keys pf.path_map := by
  intro l
  induction l with
  | nil => intro pf c h; exact Or.inl h
  | cons a l ih =>
    intro pf c h
    rw [List.foldl_cons] at h
    rcases ih _ c h with h1 | h1
    · unfold relaxStep at h1
      revert h1
      cases getTile grid a with
      | none => exact fun h1 => Or.inl h1
      | some t =>
        intro h1
        rcases testCoords_cts_sub h1 with h2 | h2
        · exact Or.inl h2
        · refine Or.inr ?_
          rw [h2.1]
          intro hmem
          obtain ⟨n, hn⟩ := getTile_isSome_of_mem hmem
          have hn' : getNode pf.path_map a = some n := hn
          rw [h2.2] at hn'
          cases hn'
    · refine Or.inr ?_
      intro hmem
      exact h1 (by
        unfold relaxStep
        cases hg : getTile grid a with
        | none => exact hmem
        | some t => exact testCoords_keys_mono hmem)

/-! Facts about the reachability relations. -/

theorem CostReach.nonneg {grid : List (C × T)} {adj : C → List C} {start : C} {k : Int} {c : C}
    (h : CostReach grid adj start k c) : 0 ≤ k := by
  induction h with
  | refl => exact le_refl 0
  | step _ _ _ ih => omega

theorem hopReach_zero {grid : List (C × T)} {adj : C → List C} {start c : C}
    (h : HopReach grid adj start 0 c) : c = start := by
  cases h
  rfl

theorem hopReach_grid {grid : List (C × T)} {adj : C → List C} {start c : C} {n : Nat}
    (h : HopReach grid adj start n c) : c = start ∨ c ∈ keys grid := by
  cases h with
  | refl => exact Or.inl rfl
  | step _ _ hg => exact Or.inr hg

theorem hopCost_nonneg (n : Nat) : 0 ≤ hopCost n := by
  have h : (1 : Int) ≤ 2 ^ n := one_le_pow₀ (by norm_num)
  unfold hopCost
  omega

theorem hopCost_lt {n m : Nat} (h : n < m) : hopCost n < hopCost m := by
  have hp : (2 : Int) ^ n < 2 ^ m := pow_lt_pow_right₀ (by norm_num) h
  unfold hopCost
  omega

theorem hopCost_succ (n : Nat) : 2 * hopCost n + 1 = hopCost (n + 1) := by
  unfold hopCost
  ring

theorem costReach_of_hopReach {grid : List (C × T)} {adj : C → List C} {start c : C} {n : Nat}
    (h : HopReach grid adj start n c) : CostReach grid adj start (hopCost n) c := by
  induction h with
  | refl =>
    have h0 : hopCost 0 = 0 := by unfold hopCost; norm_num
    rw [h0]
    exact CostReach.refl
  | step _ hadj hg ih =>
    rw [← hopCost_succ]
    exact CostReach.step ih hadj hg

theorem hopReach_of_costReach {grid : List (C × T)} {adj : C → List C} {start c : C} {k : Int}
    (h : CostReach grid adj start k c) :
    ∃ n, HopReach grid adj start n c ∧ k = hopCost n := by
  induction h with
  | refl =>
    refine ⟨0, HopReach.refl, ?_⟩
    unfold hopCost
    norm_num
  | step _ hadj hg ih =>
    obtain ⟨n, hn, hk⟩ := ih
    refine ⟨n + 1, HopReach.step hn hadj hg, ?_⟩
    rw [hk, hopCost_succ]

/-! The central Dijkstra covering argument: every cost achievable by a walk is
matched by a settled coordinate or dominated by a frontier coordinate. -/

theorem reach_covered {grid : List (C × T)} {adj : C → List C} {start : C}
    {pf : Pathfinder C} (hInv : Inv grid adj start pf) :
    ∀ {k : Int} {c : C}, CostReach grid adj start k c →
      (c ∈ pf.searched_coords ∧ (getNodeD pf.path_map c).total_cost ≤ k) ∨
        (∃ y ∈ pf.coords_to_search, (getNodeD pf.path_map y).total_cost ≤ k) := by
  intro k c h
  induction h with
  | refl =>
    have hmem := hInv.base.start_mem
    have hnode := hInv.base.pm_inv.start_node
    have hcost : (getNodeD pf.path_map start).total_cost = 0 := by
      rw [getNodeD_eq hnode]
    rcases hInv.base.keys_cover start hmem with hc | hc
    · exact Or.inr ⟨start, hc, le_of_eq hcost⟩
    · exact Or.inl ⟨hc, le_of_eq hcost⟩
  | step h1 hadj hg ih =>
    rename_i k' u c'
    have hk' : 0 ≤ k' := h1.nonneg
    rcases ih with ⟨hs, hle⟩ | ⟨y, hy, hyk⟩
    · obtain ⟨n, hn, hb⟩ := hInv.relaxed u hs c' hadj hg
      have hnc : (getNodeD pf.path_map c').total_cost ≤ 2 * k' + 1 := by
        rw [getNodeD_eq hn]
        omega
      rcases hInv.base.keys_cover c' (mem_keys_of_getTile hn) with hc | hc
      · exact Or.inr ⟨c', hc, hnc⟩
      · exact Or.inl ⟨hc, hnc⟩
    · exact Or.inr ⟨y, hy, by omega⟩

theorem popped_min {grid : List (C × T)} {adj : C → List C} {start : C}
    {pf pf1 : Pathfinder C} {tc : C} (hInv : Inv grid adj start pf)
    (hnext : getNextCoords pf = (some tc, pf1)) :
    ∀ k, CostReach grid adj start k tc → (getNodeD pf.path_map tc).total_cost ≤ k := by
  intro k hk
  obtain ⟨_, hmin, _⟩ := getNextCoords_some hnext
  rcases reach_covered hInv hk with ⟨_, hle⟩ | ⟨y, hy, hyk⟩
  · exact hle
  · exact le_trans (hmin y hy) hyk

/-! Preservation of the mid-relaxation invariant by one test_coords call. -/

theorem pre_insert_fresh {grid : List (C × T)} {adj : C → List C} {start tc : C} {k0 : Int}
    {pf : Pathfinder C} (hpe : PreExpand grid adj start tc k0 pf)
    {a : C} (ha : a ∈ adj tc) (hg : a ∈ keys grid)
    (hd : getNode pf.path_map a = none) :
    PreExpand grid adj start tc k0
      (insertNode pf a ⟨(getNodeD pf.path_map tc).total_cost + (k0 + 1), some tc⟩) := by
  obtain ⟨ntc, hntc, hk0⟩ := hpe.pin
  have hDtc : getNodeD pf.path_map tc = ntc := getNodeD_eq hntc
  have hk0n : 0 ≤ k0 := by
    have h := hpe.base.pm_inv.nonneg tc ntc hntc
    omega
  have hreach_tc : CostReach grid adj start k0 tc := by
    have h := hpe.base.pm_inv.reach tc ntc hntc
    rwa [hk0] at h
  have hreach_a : CostReach grid adj start (2 * k0 + 1) a := CostReach.step hreach_tc ha hg
  set nA : PathfindNode C := ⟨(getNodeD pf.path_map tc).total_cost + (k0 + 1), some tc⟩ with hnA
  have hnAc : nA.total_cost = 2 * k0 + 1 := by
    rw [hnA]
    show (getNodeD pf.path_map tc).total_cost + (k0 + 1) = 2 * k0 + 1
    rw [hDtc, hk0]
    ring
  have hak : a ∉ keys pf.path_map := by
    intro hm
    obtain ⟨t, ht⟩ := getTile_isSome_of_mem hm
    have ht' : getNode pf.path_map a = some t := ht
    rw [hd] at ht'
    cases ht'
  have hacts : a ∉ pf.coords_to_search := fun h => hak (hpe.base.cts_sub a h)
  have hase : a ∉ pf.searched_coords := fun h => hak (hpe.base.searched_sub a h)
  have hatc : a ≠ tc := fun h => hase (h ▸ hpe.tc_searched)
  have hast : a ≠ start := fun h => hak (h ▸ hpe.base.start_mem)
  have hpm : (insertNode pf a nA).path_map = insertTile pf.path_map a nA := rfl
  have hcts : (insertNode pf a nA).coords_to_search = insertSet pf.coords_to_search a := rfl
  have hsc : (insertNode pf a nA).searched_coords = pf.searched_coords := rfl
  have hga : getNode (insertNode pf a nA).path_map a = some nA := by
    rw [hpm]
    exact getTile_insertTile_self _ _ _
  have hgne : ∀ c : C, c ≠ a →
      getNode (insertNode pf a nA).path_map c = getNode pf.path_map c := by
    intro c hc
    rw [hpm]
    exact getTile_insertTile_ne _ hc
  have hDne : ∀ c : C, c ≠ a →
      getNodeD (insertNode pf a nA).path_map c = getNodeD pf.path_map c := by
    intro c hc
    unfold getNodeD
    rw [hgne c hc]
  have hkeys : ∀ c : C, c ∈ keys (insertNode pf a nA).path_map ↔
      c = a ∨ c ∈ keys pf.path_map := by
    intro c
    rw [hpm]
    exact mem_keys_insertTile
  refine
    { base :=
      { pm_inv :=
        { start_node := by rw [hgne start (Ne.symm hast)]; exact hpe.base.pm_inv.start_node
          nonneg := by
            intro c n hn
            by_cases hca : c = a
            · subst hca
              rw [hga] at hn
              have hn' := Option.some_inj.mp hn
              subst hn'
              omega
            · rw [hgne c hca] at hn
              exact hpe.base.pm_inv.nonneg c n hn
          parent := by
            intro c n hn hcs
            by_cases hca : c = a
            · subst hca
              rw [hga] at hn
              have hn' := Option.some_inj.mp hn
              subst hn'
              refine ⟨tc, ntc, rfl, by rw [hgne tc (Ne.symm hatc)]; exact hntc, ?_, ha, hg⟩
              omega
            · rw [hgne c hca] at hn
              obtain ⟨p, np, hfrom, hp, hlt, hadjp, hgr⟩ := hpe.base.pm_inv.parent c n hn hcs
              have hpa : p ≠ a := by
                intro h
                rw [h, hd] at hp
                cases hp
              exact ⟨p, np, hfrom, by rw [hgne p hpa]; exact hp, hlt, hadjp, hgr⟩
          reach := by
            intro c n hn
            by_cases hca : c = a
            · subst hca
              rw [hga] at hn
              have hn' := Option.some_inj.mp hn
              subst hn'
              rw [hnAc]
              exact hreach_a
            · rw [hgne c hca] at hn
              exact hpe.base.pm_inv.reach c n hn }
        nodup_cts := by rw [hcts]; exact nodup_insertSet hpe.base.nodup_cts
        nodup_searched := by rw [hsc]; exact hpe.base.nodup_searched
        cts_sub := by
          intro c hc
          rw [hcts] at hc
          rw [hkeys c]
          rcases mem_insertSet.mp hc with h | h
          · exact Or.inl h
          · exact Or.inr (hpe.base.cts_sub c h)
        searched_sub := by
          intro c hc
          rw [hsc] at hc
          rw [hkeys c]
          exact Or.inr (hpe.base.searched_sub c hc)
        keys_cover := by
          intro c hc
          rw [hkeys c] at hc
          rw [hcts, hsc]
          rcases hc with h | h
          · exact Or.inl (mem_insertSet.mpr (Or.inl h))
          · rcases hpe.base.keys_cover c h with h1 | h1
            · exact Or.inl (mem_insertSet.mpr (Or.inr h1))
            · exact Or.inr h1
        disj := by
          intro c hc
          rw [hsc] at hc
          rw [hcts]
          intro hmem
          rcases mem_insertSet.mp hmem with h | h
          · exact hase (h ▸ hc)
          · exact hpe.base.disj c hc h
        in_grid := by
          intro c hc
          rw [hkeys c] at hc
          rcases hc with h | h
          · exact Or.inr (h ▸ hg)
          · exact hpe.base.in_grid c h
        start_mem := by
          rw [hkeys start]
          exact Or.inr hpe.base.start_mem
        searched_min := by
          intro c hc n hn k hk
          rw [hsc] at hc
          have hca : c ≠ a := fun h => hase (h ▸ hc)
          rw [hgne c hca] at hn
          exact hpe.base.searched_min c hc n hn k hk
        searched_le := by
          intro u hu c hc
          rw [hsc] at hu
          rw [hcts] at hc
          have hua : u ≠ a := fun h => hase (h ▸ hu)
          rw [hDne u hua]
          rcases mem_insertSet.mp hc with h | h
          · subst h
            rw [getNodeD_eq hga, hnAc]
            have hb := hpe.searched_le_k0 u hu
            omega
          · have hca : c ≠ a := fun hh => hacts (hh ▸ h)
            rw [hDne c hca]
            exact hpe.base.searched_le u hu c h }
      tc_searched := by rw [hsc]; exact hpe.tc_searched
      relaxed_rest := by
        intro u hu hune c hcadj hcg
        rw [hsc] at hu
        obtain ⟨n, hn, hb⟩ := hpe.relaxed_rest u hu hune c hcadj hcg
        have hca : c ≠ a := by
          intro h
          rw [h, hd] at hn
          cases hn
        have hua : u ≠ a := fun h => hase (h ▸ hu)
        refine ⟨n, by rw [hgne c hca]; exact hn, ?_⟩
        rw [hDne u hua]
        exact hb
      pin := ⟨ntc, by rw [hgne tc (Ne.symm hatc)]; exact hntc, hk0⟩
      searched_le_k0 := by
        intro u hu
        rw [hsc] at hu
        have hua : u ≠ a := fun h => hase (h ▸ hu)
        rw [hDne u hua]
        exact hpe.searched_le_k0 u hu }

theorem pre_update {grid : List (C × T)} {adj : C → List C} {start tc : C} {k0 : Int}
    {pf : Pathfinder C} (hpe : PreExpand grid adj start tc k0 pf)
    {a : C} (ha : a ∈ adj tc) (hg : a ∈ keys grid) {nodeA0 : PathfindNode C}
    (hd : getNode pf.path_map a = some nodeA0)
    (hlt : (getNodeD pf.path_map tc).total_cost + (k0 + 1) < nodeA0.total_cost) :
    PreExpand grid adj start tc k0
      { pf with path_map := (insertTile pf.path_map a
          ⟨(getNodeD pf.path_map tc).total_cost + (k0 + 1), some tc⟩) } := by
  obtain ⟨ntc, hntc, hk0⟩ := hpe.pin
  have hDtc : getNodeD pf.path_map tc = ntc := getNodeD_eq hntc
  have hk0n : 0 ≤ k0 := by
    have h := hpe.base.pm_inv.nonneg tc ntc hntc
    omega
  have hreach_tc : CostReach grid adj start k0 tc := by
    have h := hpe.base.pm_inv.reach tc ntc hntc
    rwa [hk0] at h
  have hreach_a : CostReach grid adj start (2 * k0 + 1) a := CostReach.step hreach_tc ha hg
  set nA : PathfindNode C := ⟨(getNodeD pf.path_map tc).total_cost + (k0 + 1), some tc⟩
    with hnA
  set pf' : Pathfinder C := { pf with path_map := insertTile pf.path_map a nA } with hpf'
  have hnAc : nA.total_cost = 2 * k0 + 1 := by
    rw [hnA]
    show (getNodeD pf.path_map tc).total_cost + (k0 + 1) = 2 * k0 + 1
    rw [hDtc, hk0]
    ring
  have hltA : nA.total_cost < nodeA0.total_cost := hlt
  have hase : a ∉ pf.searched_coords := by
    intro hmem
    have hm := hpe.base.searched_min a hmem nodeA0 hd (2 * k0 + 1) hreach_a
    have hb : (getNodeD pf.path_map tc).total_cost = k0 := by rw [hDtc, hk0]
    rw [hb] at hlt
    omega
  have hatc : a ≠ tc := fun h => hase (h ▸ hpe.tc_searched)
  have hast : a ≠ start := by
    intro h
    subst h
    rw [hpe.base.pm_inv.start_node] at hd
    have hd' := Option.some_inj.mp hd
    have h0 : nodeA0.total_cost = 0 := by rw [← hd']
    have hb : (getNodeD pf.path_map tc).total_cost = k0 := by rw [hDtc, hk0]
    omega
  have hmemk : a ∈ keys pf.path_map := mem_keys_of_getTile hd
  have hacts : a ∈ pf.coords_to_search := by
    rcases hpe.base.keys_cover a hmemk with h | h
    · exact h
    · exact absurd h hase
  have hpm : pf'.path_map = insertTile pf.path_map a nA := rfl
  have hcts : pf'.coords_to_search = pf.coords_to_search := rfl
  have hsc : pf'.searched_coords = pf.searched_coords := rfl
  have hga : getNode pf'.path_map a = some nA := by
    rw [hpm]
    exact getTile_insertTile_self _ _ _
  have hgne : ∀ c : C, c ≠ a → getNode pf'.path_map c = getNode pf.path_map c := by
    intro c hc
    rw [hpm]
    exact getTile_insertTile_ne _ hc
  have hDne : ∀ c : C, c ≠ a → getNodeD pf'.path_map c = getNodeD pf.path_map c := by
    intro c hc
    unfold getNodeD
    rw [hgne c hc]
  have hkeys : ∀ c : C, c ∈ keys pf'.path_map ↔ c = a ∨ c ∈ keys pf.path_map := by
    intro c
    rw [hpm]
    exact mem_keys_insertTile
  refine
    { base :=
      { pm_inv :=
        { start_node := by rw [hgne start (Ne.symm hast)]; exact hpe.base.pm_inv.start_node
          nonneg := by
            intro c n hn
            by_cases hca : c = a
            · subst hca
              rw [hga] at hn
              have hn' := Option.some_inj.mp hn
              subst hn'
              omega
            · rw [hgne c hca] at hn
              exact hpe.base.pm_inv.nonneg c n hn
          parent := by
            intro c n hn hcs
            by_cases hca : c = a
            · subst hca
              rw [hga] at hn
              have hn' := Option.some_inj.mp hn
              subst hn'
              refine ⟨tc, ntc, rfl, by rw [hgne tc (Ne.symm hatc)]; exact hntc, ?_, ha, hg⟩
              omega
            · rw [hgne c hca] at hn
              obtain ⟨p, np, hfrom, hp, hplt, hadjp, hgr⟩ := hpe.base.pm_inv.parent c n hn hcs
              by_cases hpa : p = a
              · subst hpa
                rw [hd] at hp
                have hp' := Option.some_inj.mp hp
                subst hp'
                refine ⟨p, nA, hfrom, hga, ?_, hadjp, hgr⟩
                omega
              · exact ⟨p, np, hfrom, by rw [hgne p hpa]; exact hp, hplt, hadjp, hgr⟩
          reach := by
            intro c n hn
            by_cases hca : c = a
            · subst hca
              rw [hga] at hn
              have hn' := Option.some_inj.mp hn
              subst hn'
              rw [hnAc]
              exact hreach_a
            · rw [hgne c hca] at hn
              exact hpe.base.pm_inv.reach c n hn }
        nodup_cts := by rw [hcts]; exact hpe.base.nodup_cts
        nodup_searched := by rw [hsc]; exact hpe.base.nodup_searched
        cts_sub := by
          intro c hc
          rw [hcts] at hc
          rw [hkeys c]
          exact Or.inr (hpe.base.cts_sub c hc)
        searched_sub := by
          intro c hc
          rw [hsc] at hc
          rw [hkeys c]
          exact Or.inr (hpe.base.searched_sub c hc)
        keys_cover := by
          intro c hc
          rw [hkeys c] at hc
          rw [hcts, hsc]
          rcases hc with h | h
          · exact Or.inl (h ▸ hacts)
          · exact hpe.base.keys_cover c h
        disj := by
          intro c hc
          rw [hsc] at hc
          rw [hcts]
          exact hpe.base.disj c hc
        in_grid := by
          intro c hc
          rw [hkeys c] at hc
          rcases hc with h | h
          · exact Or.inr (h ▸ hg)
          · exact hpe.base.in_grid c h
        start_mem := by
          rw [hkeys start]
          exact Or.inr hpe.base.start_mem
        searched_min := by
          intro c hc n hn k hk
          rw [hsc] at hc
          have hca : c ≠ a := fun h => hase (h ▸ hc)
          rw [hgne c hca] at hn
          exact hpe.base.searched_min c hc n hn k hk
        searched_le := by
          intro u hu c hc
          rw [hsc] at hu
          rw [hcts] at hc
          have hua : u ≠ a := fun h => hase (h ▸ hu)
          rw [hDne u hua]
          by_cases hca : c = a
          · subst hca
            rw [getNodeD_eq hga, hnAc]
            have hb := hpe.searched_le_k0 u hu
            omega
          · rw [hDne c hca]
            exact hpe.base.searched_le u hu c hc }
      tc_searched := by rw [hsc]; exact hpe.tc_searched
      relaxed_rest := by
        intro u hu hune c hcadj hcg
        rw [hsc] at hu
        obtain ⟨n, hn, hb⟩ := hpe.relaxed_rest u hu hune c hcadj hcg
        have hua : u ≠ a := fun h => hase (h ▸ hu)
        by_cases hca : c = a
        · subst hca
          refine ⟨nA, hga, ?_⟩
          rw [hDne u hua]
          rw [hd] at hn
          have hn' := Option.some_inj.mp hn
          subst hn'
          omega
        · refine ⟨n, by rw [hgne c hca]; exact hn, ?_⟩
          rw [hDne u hua]
          exact hb
      pin := ⟨ntc, by rw [hgne tc (Ne.symm hatc)]; exact hntc, hk0⟩
      searched_le_k0 := by
        intro u hu
        rw [hsc] at hu
        have hua : u ≠ a := fun h => hase (h ▸ hu)
        rw [hDne u hua]
        exact hpe.searched_le_k0 u hu }

theorem testCoords_pre {grid : List (C × T)} {adj : C → List C} {start tc : C} {k0 : Int}
    {pf : Pathfinder C} (hpe : PreExpand grid adj start tc k0 pf)
    {a : C} (ha : a ∈ adj tc) (hg : a ∈ keys grid) :
    PreExpand grid adj start tc k0 (testCoords pf a tc (k0 + 1)) ∧
      ∃ n, getNode (testCoords pf a tc (k0 + 1)).path_map a = some n ∧
        n.total_cost ≤ 2 * k0 + 1 := by
  obtain ⟨ntc, hntc, hk0⟩ := hpe.pin
  have hDtc : getNodeD pf.path_map tc = ntc := getNodeD_eq hntc
  have htotc : (getNodeD pf.path_map tc).total_cost + (k0 + 1) = 2 * k0 + 1 := by
    rw [hDtc, hk0]
    ring
  cases hd : getNode pf.path_map a with
  | none =>
    rw [testCoords_eq_of_none hd]
    refine ⟨pre_insert_fresh hpe ha hg hd,
      ⟨(getNodeD pf.path_map tc).total_cost + (k0 + 1), some tc⟩,
      getTile_insertTile_self _ _ _, le_of_eq htotc⟩
  | some nodeA0 =>
    by_cases hlt : (getNodeD pf.path_map tc).total_cost + (k0 + 1) < nodeA0.total_cost
    · rw [testCoords_eq_of_lt hd hlt]
      refine ⟨pre_update hpe ha hg hd hlt,
        ⟨(getNodeD pf.path_map tc).total_cost + (k0 + 1), some tc⟩,
        getTile_insertTile_self _ _ _, le_of_eq htotc⟩
    · rw [testCoords_eq_of_ge hd hlt]
      exact ⟨hpe, nodeA0, hd, by omega⟩

theorem foldl_relax_pre {grid : List (C × T)} {adj : C → List C} {start tc : C} {k0 : Int} :
    ∀ (l : List C) (pf : Pathfinder C), (∀ x ∈ l, x ∈ adj tc) →
      PreExpand grid adj start tc k0 pf →
      PreExpand grid adj start tc k0 (l.foldl (relaxStep grid tc k0) pf) ∧
        ∀ a ∈ l, a ∈ keys grid →
          ∃ n, getNode (l.foldl (relaxStep grid tc k0) pf).path_map a = some n ∧
            n.total_cost ≤ 2 * k0 + 1 := by
  intro l
  induction l with
  | nil =>
    intro pf _ hpe
    exact ⟨hpe, by simp⟩
  | cons a l ih =>
    intro pf hsub hpe
    rw [List.foldl_cons]
    cases hga : getTile grid a with
    | none =>
      have hstep : relaxStep grid tc k0 pf a = pf := by
        unfold relaxStep
        rw [hga]
      rw [hstep]
      obtain ⟨hpe', hcov⟩ := ih pf (fun x hx => hsub x (List.mem_cons_of_mem _ hx)) hpe
      refine ⟨hpe', ?_⟩
      intro b hb hbg
      rcases List.mem_cons.mp hb with h | h
      · subst h
        obtain ⟨t, ht⟩ := getTile_isSome_of_mem hbg
        rw [hga] at ht
        cases ht
      · exact hcov b h hbg
    | some t0 =>
      have hstep : relaxStep grid tc k0 pf a = testCoords pf a tc (k0 + 1) := by
        unfold relaxStep
        rw [hga]
      rw [hstep]
      have hag : a ∈ keys grid := mem_keys_of_getTile hga
      obtain ⟨hpe1, n1, hn1, hb1⟩ := testCoords_pre hpe (hsub a (List.mem_cons_self _ _)) hag
      obtain ⟨hpe', hcov⟩ := ih _ (fun x hx => hsub x (List.mem_cons_of_mem _ hx)) hpe1
      refine ⟨hpe', ?_⟩
      intro b hb hbg
      rcases List.mem_cons.mp hb with h | h
      · subst h
        obtain ⟨n2, hn2, hle2⟩ := foldl_relax_mono grid tc k0 l _ b n1 hn1
        exact ⟨n2, hn2, le_trans hle2 hb1⟩
      · exact hcov b h hbg

/-! The invariant holds initially and is preserved by each loop iteration. -/

theorem getNode_initPF (start c : C) :
    getNode (initPF start).path_map c = if start = c then some ⟨0, none⟩ else none := by
  unfold initPF getNode
  by_cases h : start = c
  · simp [getTile, h]
  · simp [getTile, h]

theorem inv_init (grid : List (C × T)) (adj : C → List C) (start : C) :
    Inv grid adj start (initPF start) := by
  have hkeys : keys (initPF start).path_map = [start] := rfl
  refine
    { base :=
      { pm_inv :=
        { start_node := by rw [getNode_initPF]; simp
          nonneg := by
            intro c n hn
            rw [getNode_initPF] at hn
            by_cases h : start = c
            · rw [if_pos h] at hn
              have h' := Option.some_inj.mp hn
              rw [← h']
            · rw [if_neg h] at hn
              cases hn
          parent := by
            intro c n hn hcs
            rw [getNode_initPF] at hn
            by_cases h : start = c
            · exact absurd h.symm hcs
            · rw [if_neg h] at hn
              cases hn
          reach := by
            intro c n hn
            rw [getNode_initPF] at hn
            by_cases h : start = c
            · rw [if_pos h] at hn
              have h' := Option.some_inj.mp hn
              rw [← h', ← h]
              exact CostReach.refl
            · rw [if_neg h] at hn
              cases hn }
        nodup_cts := by simp [initPF]
        nodup_searched := by simp [initPF]
        cts_sub := by
          intro c hc
          rw [hkeys]
          simpa [initPF] using hc
        searched_sub := by
          intro c hc
          simp [initPF] at hc
        keys_cover := by
          intro c hc
          rw [hkeys] at hc
          exact Or.inl (by simpa [initPF] using hc)
        disj := by
          intro c hc
          simp [initPF] at hc
        in_grid := by
          intro c hc
          rw [hkeys] at hc
          simp at hc
          exact Or.inl hc
        start_mem := by
          rw [hkeys]
          simp
        searched_min := by
          intro c hc
          simp [initPF] at hc
        searched_le := by
          intro u hu
          simp [initPF] at hu }
      relaxed := ?_ }
  intro u hu
  simp [initPF] at hu

theorem inv_expand {grid : List (C × T)} {adj : C → List C} {start : C}
    {pf pf1 : Pathfinder C} {tc : C} (hInv : Inv grid adj start pf)
    (hnext : getNextCoords pf = (some tc, pf1)) :
    Inv grid adj start (expand grid adj pf1 tc ((getNodeD pf1.path_map tc).total_cost)) := by
  obtain ⟨htcm, hmin, hpf1⟩ := getNextCoords_some hnext
  subst hpf1
  obtain ⟨ntc0, hntc0⟩ := getTile_isSome_of_mem (hInv.base.cts_sub tc htcm)
  have hntc0' : getNode pf.path_map tc = some ntc0 := hntc0
  have hpe : PreExpand grid adj start tc ((getNodeD pf.path_map tc).total_cost)
      ⟨removeSet pf.coords_to_search tc, insertSet pf.searched_coords tc, pf.path_map⟩ :=
    { base :=
      { pm_inv := hInv.base.pm_inv
        nodup_cts := nodup_removeSet hInv.base.nodup_cts
        nodup_searched := nodup_insertSet hInv.base.nodup_searched
        cts_sub := fun c hc => hInv.base.cts_sub c (mem_removeSet.mp hc).1
        searched_sub := by
          intro c hc
          rcases mem_insertSet.mp hc with h | h
          · exact h ▸ hInv.base.cts_sub tc htcm
          · exact hInv.base.searched_sub c h
        keys_cover := by
          intro c hc
          rcases hInv.base.keys_cover c hc with h | h
          · by_cases hct : c = tc
            · exact Or.inr (mem_insertSet.mpr (Or.inl hct))
            · exact Or.inl (mem_removeSet.mpr ⟨h, hct⟩)
          · exact Or.inr (mem_insertSet.mpr (Or.inr h))
        disj := by
          intro c hc hm
          rcases mem_insertSet.mp hc with h | h
          · exact (mem_removeSet.mp hm).2 h
          · exact hInv.base.disj c h (mem_removeSet.mp hm).1
        in_grid := hInv.base.in_grid
        start_mem := hInv.base.start_mem
        searched_min := by
          intro c hc n hn k hk
          rcases mem_insertSet.mp hc with h | h
          · subst h
            have hp := popped_min hInv hnext k hk
            rw [getNodeD_eq hn] at hp
            exact hp
          · exact hInv.base.searched_min c h n hn k hk
        searched_le := by
          intro u hu c hc
          rcases mem_insertSet.mp hu with h | h
          · exact h ▸ hmin c (mem_removeSet.mp hc).1
          · exact hInv.base.searched_le u h c (mem_removeSet.mp hc).1 }
      tc_searched := mem_insertSet.mpr (Or.inl rfl)
      relaxed_rest := by
        intro u hu hune
        rcases mem_insertSet.mp hu with h | h
        · exact absurd h hune
        · exact hInv.relaxed u h
      pin := ⟨ntc0, hntc0', by rw [getNodeD_eq hntc0']⟩
      searched_le_k0 := by
        intro u hu
        rcases mem_insertSet.mp hu with h | h
        · exact le_of_eq (by rw [h])
        · exact hInv.base.searched_le u h tc htcm }
  obtain ⟨hpe', hcov⟩ := foldl_relax_pre (adj tc) _ (fun x hx => hx) hpe
  rw [expand_eq]
  refine { base := hpe'.base, relaxed := ?_ }
  intro u hu
  by_cases hut : u = tc
  · subst hut
    intro c hc hcg
    obtain ⟨n, hn, hb⟩ := hcov c hc hcg
    refine ⟨n, hn, ?_⟩
    obtain ⟨m, hm, hmk⟩ := hpe'.pin
    rw [getNodeD_eq hm, hmk]
    exact hb
  · exact hpe'.relaxed_rest u hu hut

theorem reach_inv {grid : List (C × T)} {adj : C → List C} {start : C} {pf : Pathfinder C}
    (h : ReachState grid adj start pf) : Inv grid adj start pf := by
  induction h with
  | init => exact inv_init grid adj start
  | step h hnext ih => exact inv_expand ih hnext

/-! Path reconstruction: the from_coords chain always reaches start. -/

theorem filter_length_mono {α : Type} {l : List α} {q r : α → Bool}
    (h : ∀ x ∈ l, q x = true → r x = true) :
    (l.filter q).length ≤ (l.filter r).length := by
  induction l with
  | nil => exact le_refl 0
  | cons a l ih =>
    have ih' := ih (fun x hx => h x (List.mem_cons_of_mem _ hx))
    cases hq : q a with
    | true =>
      have hr := h a (List.mem_cons_self _ _) hq
      simp [List.filter, hq, hr]
      exact ih'
    | false =>
      cases hr : r a with
      | true =>
        simp [List.filter, hq, hr]
        exact le_trans ih' (Nat.le_succ _)
      | false =>
        simp [List.filter, hq, hr]
        exact ih'

theorem filter_length_lt {α : Type} {l : List α} {q r : α → Bool}
    (h : ∀ x ∈ l, q x = true → r x = true) {x0 : α} (hx0 : x0 ∈ l)
    (hr : r x0 = true) (hq : q x0 = false) :
    (l.filter q).length < (l.filter r).length := by
  induction l with
  | nil => cases hx0
  | cons a l ih =>
    have hmono := filter_length_mono (fun x hx hqx => h x (List.mem_cons_of_mem _ hx) hqx)
    rcases List.mem_cons.mp hx0 with h0 | h0
    · subst h0
      simp [List.filter, hq, hr]
      exact Nat.lt_succ_of_le hmono
    · have ih' := ih (fun x hx => h x (List.mem_cons_of_mem _ hx)) h0
      cases hqa : q a with
      | true =>
        have hra := h a (List.mem_cons_self _ _) hqa
        simp [List.filter, hqa, hra]
        exact ih'
      | false =>
        cases hra : r a with
        | true =>
          simp [List.filter, hqa, hra]
          exact Nat.lt_succ_of_le (le_of_lt ih')
        | false =>
          simp [List.filter, hqa, hra]
          exact ih'

theorem countLT_le_length (pm : List (C × PathfindNode C)) (k : Int) :
    countLT pm k ≤ pm.length :=
  List.length_filter_le _ pm

theorem countLT_lt {pm : List (C × PathfindNode C)} {p0 : C} {np n : PathfindNode C}
    (hmem : (p0, np) ∈ pm) (hlt : np.total_cost < n.total_cost) :
    countLT pm np.total_cost < countLT pm n.total_cost := by
  unfold countLT
  refine filter_length_lt ?_ hmem ?_ ?_
  · intro x _ hx
    simp only [decide_eq_true_eq] at hx ⊢
    omega
  · simp only [decide_eq_true_eq]
    exact hlt
  · simp only [decide_eq_false_iff_not]
    omega

theorem PathTo.head_eq {grid : List (C × T)} {adj : C → List C} {start : C} {p : List C}
    {c : C} (h : PathTo grid adj start p c) : p.head? = some c := by
  cases h with
  | base => rfl
  | cons _ _ _ => rfl

theorem PathTo.ne_nil {grid : List (C × T)} {adj : C → List C} {start : C} {p : List C}
    {c : C} (h : PathTo grid adj start p c) : p ≠ [] := by
  cases h with
  | base => simp
  | cons _ _ _ => simp

theorem PathTo.last_eq {grid : List (C × T)} {adj : C → List C} {start : C} {p : List C}
    {c : C} (h : PathTo grid adj start p c) : p.getLast? = some start := by
  induction h with
  | base => rfl
  | cons hp hadj hg ih =>
    rename_i p' b c'
    cases hq : p' with
    | nil => exact absurd hq hp.ne_nil
    | cons y rest =>
      subst hq
      rw [List.getLast?_cons_cons]
      exact ih

theorem PathTo.grid_mem {grid : List (C × T)} {adj : C → List C} {start : C} {p : List C}
    {c : C} (h : PathTo grid adj start p c) :
    ∀ x ∈ p, x ≠ start → x ∈ keys grid := by
  induction h with
  | base =>
    intro x hx hne
    simp at hx
    exact absurd hx hne
  | cons hp hadj hg ih =>
    intro x hx hne
    rcases List.mem_cons.mp hx with h1 | h1
    · exact h1 ▸ hg
    · exact ih x h1 hne

theorem PathTo.chain_adj {grid : List (C × T)} {adj : C → List C} {start : C} {p : List C}
    {c : C} (h : PathTo grid adj start p c) :
    List.Chain' (fun x y => x ∈ adj y) p := by
  induction h with
  | base => exact List.chain'_singleton _
  | cons hp hadj hg ih =>
    refine List.Chain'.cons' ih ?_
    intro y hy
    rw [hp.head_eq] at hy
    rw [Option.some_inj.mp hy] at hadj
    exact hadj

theorem PathTo.hopReach {grid : List (C × T)} {adj : C → List C} {start : C} {p : List C}
    {c : C} (h : PathTo grid adj start p c) :
    HopReach grid adj start (p.length - 1) c := by
  induction h with
  | base => exact HopReach.refl
  | cons hp hadj hg ih =>
    rename_i p' b c'
    have hlen : p'.length - 1 + 1 = (c' :: p').length - 1 := by
      cases hq : p' with
      | nil => exact absurd hq hp.ne_nil
      | cons y rest => simp
    rw [← hlen]
    exact HopReach.step ih hadj hg

theorem pathFromAux_spec {grid : List (C × T)} {adj : C → List C} {start : C}
    {pm : List (C × PathfindNode C)} (hpm : PmInv grid adj start pm) :
    ∀ (fuel : Nat) (c : C) (n : PathfindNode C), getNode pm c = some n →
      countLT pm n.total_cost < fuel →
      ∃ p, pathFromAux pm fuel c = some p ∧ PathTo grid adj start p c ∧
        List.Chain' (fun x y => (getNodeD pm y).total_cost < (getNodeD pm x).total_cost) p ∧
        ∀ x ∈ p, ∃ nx, getNode pm x = some nx := by
  intro fuel
  induction fuel with
  | zero =>
    intro c n hn hcount
    exact absurd hcount (Nat.not_lt_zero _)
  | succ fuel ih =>
    intro c n hn hcount
    cases hfc : n.from_coords with
    | none =>
      have hc : c = start := by
        by_contra hne
        obtain ⟨p0, np, hfrom, _⟩ := hpm.parent c n hn hne
        rw [hfc] at hfrom
        cases hfrom
      subst hc
      refine ⟨[c], ?_, PathTo.base, List.chain'_singleton _, ?_⟩
      · simp [pathFromAux, getNodeD_eq hn, hfc]
      · intro x hx
        simp at hx
        subst hx
        exact ⟨n, hn⟩
    | some p0 =>
      have hcs : c ≠ start := by
        intro h
        subst h
        rw [hpm.start_node] at hn
        have h' := Option.some_inj.mp hn
        rw [← h'] at hfc
        cases hfc
      obtain ⟨p0', np, hfrom, hp0, hlt, hadj, hgr⟩ := hpm.parent c n hn hcs
      rw [hfc] at hfrom
      have hpe := Option.some_inj.mp hfrom
      subst hpe
      have hcnt : countLT pm np.total_cost < fuel := by
        have h1 : countLT pm np.total_cost < countLT pm n.total_cost :=
          countLT_lt (getTile_mem hp0) hlt
        omega
      obtain ⟨p, hp, hpt, hchain, hmem⟩ := ih p0 np hp0 hcnt
      refine ⟨c :: p, ?_, PathTo.cons hpt hadj hgr, ?_, ?_⟩
      · simp [pathFromAux, getNodeD_eq hn, hfc, hp]
      · refine List.Chain'.cons' hchain ?_
        intro y hy
        rw [hpt.head_eq] at hy
        rw [← Option.some_inj.mp hy]
        rw [getNodeD_eq hn, getNodeD_eq hp0]
        exact hlt
      · intro x hx
        rcases List.mem_cons.mp hx with h1 | h1
        · exact h1 ▸ ⟨n, hn⟩
        · exact hmem x h1

theorem currentPathFrom_spec {grid : List (C × T)} {adj : C → List C} {start : C}
    {pm : List (C × PathfindNode C)} (hpm : PmInv grid adj start pm) {c : C}
    {n : PathfindNode C} (hn : getNode pm c = some n) :
    ∃ p, currentPathFrom pm c = some p ∧ PathTo grid adj start p c ∧
      List.Chain' (fun x y => (getNodeD pm y).total_cost < (getNodeD pm x).total_cost) p ∧
      ∀ x ∈ p, ∃ nx, getNode pm x = some nx := by
  have hcount : countLT pm n.total_cost < pm.length + 1 :=
    Nat.lt_succ_of_le (countLT_le_length pm n.total_cost)
  exact pathFromAux_spec hpm (pm.length + 1) c n hn hcount

/-! Length of a cost-decreasing chain whose costs are iterated hop costs. -/

theorem hopCost_le {n m : Nat} (h : n ≤ m) : hopCost n ≤ hopCost m := by
  rcases Nat.lt_or_ge n m with h1 | h1
  · exact le_of_lt (hopCost_lt h1)
  · have : n = m := le_antisymm h h1
    rw [this]

theorem hopCost_lt_rev {n m : Nat} (h : hopCost n < hopCost m) : n < m := by
  by_contra hc
  exact absurd (hopCost_le (Nat.le_of_not_lt hc)) (not_le_of_lt h)

theorem cost_chain_length {pm : List (C × PathfindNode C)} :
    ∀ (p : List C) (m0 : Nat),
      (∀ x ∈ p, ∃ mx : Nat, (getNodeD pm x).total_cost = hopCost mx) →
      List.Chain' (fun x y => (getNodeD pm y).total_cost < (getNodeD pm x).total_cost) p →
      (∀ x, p.head? = some x → (getNodeD pm x).total_cost = hopCost m0) →
      p.length ≤ m0 + 1 := by
  intro p
  induction p with
  | nil =>
    intro m0 _ _ _
    simp
  | cons x tail ih =>
    intro m0 hall hchain hhead
    cases tail with
    | nil => simp
    | cons y rest =>
      have hx : (getNodeD pm x).total_cost = hopCost m0 := hhead x rfl
      obtain ⟨my, hy⟩ := hall y (List.mem_cons_of_mem _ (List.mem_cons_self _ _))
      have hlt : (getNodeD pm y).total_cost < (getNodeD pm x).total_cost :=
        (List.chain'_cons.mp hchain).1
      have hmy : my < m0 := by
        apply hopCost_lt_rev
        rw [← hy, ← hx]
        exact hlt
      have htail := ih my
        (fun z hz => hall z (List.mem_cons_of_mem _ hz))
        (List.chain'_cons.mp hchain).2
        (fun z hz => by rw [Option.some_inj.mp hz] at hy; exact hy)
      have : (y :: rest).length ≤ my + 1 := htail
      simp only [List.length_cons] at this ⊢
      omega

/-! The search loop: termination measure and behaviour of complete runs. -/

theorem expand_searched_eq (grid : List (C × T)) (adj : C → List C) (pf : Pathfinder C)
    (tc : C) (k : Int) : (expand grid adj pf tc k).searched_coords = pf.searched_coords := by
  rw [expand_eq]
  exact foldl_relax_searched grid tc k (adj tc) pf

theorem potential_step {grid : List (C × T)} {adj : C → List C} {start : C}
    {pf pf1 : Pathfinder C} {tc : C} (hInv : Inv grid adj start pf)
    (hnext : getNextCoords pf = (some tc, pf1)) :
    potential grid start (expand grid adj pf1 tc ((getNodeD pf1.path_map tc).total_cost)) <
      potential grid start pf := by
  obtain ⟨htcm, _, hpf1⟩ := getNextCoords_some hnext
  unfold potential
  rw [expand_searched_eq]
  have hsea : pf1.searched_coords = insertSet pf.searched_coords tc := by rw [hpf1]
  rw [hsea]
  have htoF : (insertSet pf.searched_coords tc).toFinset =
      insert tc pf.searched_coords.toFinset := by
    ext x
    simp [mem_insertSet]
  rw [htoF]
  have htcS : tc ∈ (keys grid).toFinset ∪ {start} := by
    rcases hInv.base.in_grid tc (hInv.base.cts_sub tc htcm) with h | h
    · simp [h]
    · simp [List.mem_toFinset.mpr h]
  have htcn : tc ∉ pf.searched_coords.toFinset := by
    simp only [List.mem_toFinset]
    intro hc
    exact hInv.base.disj tc hc htcm
  have hset : ((keys grid).toFinset ∪ {start}) \ insert tc pf.searched_coords.toFinset =
      (((keys grid).toFinset ∪ {start}) \ pf.searched_coords.toFinset).erase tc := by
    ext x
    simp only [Finset.mem_sdiff, Finset.mem_erase, Finset.mem_insert]
    tauto
  rw [hset]
  exact Finset.card_erase_lt_of_mem (Finset.mem_sdiff.mpr ⟨htcS, htcn⟩)

theorem potential_initPF_lt (grid : List (C × T)) (start : C) :
    potential grid start (initPF start) < grid.length + 2 := by
  unfold potential
  have h1 : (initPF start).searched_coords = ([] : List C) := rfl
  rw [h1]
  have h2 : ([] : List C).toFinset = (∅ : Finset C) := rfl
  rw [h2, Finset.sdiff_empty]
  have h3 : ((keys grid).toFinset ∪ {start}).card ≤ (keys grid).toFinset.card + 1 := by
    have := Finset.card_union_le (keys grid).toFinset ({start} : Finset C)
    simpa using this
  have h4 : (keys grid).toFinset.card ≤ (keys grid).length := (keys grid).toFinset_card_le
  have h5 : (keys grid).length = grid.length := List.length_map grid Prod.fst
  omega

theorem findPathLoop_total {grid : List (C × T)} {adj : C → List C} {start e : C} :
    ∀ (fuel : Nat) (pf : Pathfinder C), Inv grid adj start pf →
      potential grid start pf < fuel →
      findPathLoop grid adj e fuel pf ≠ none := by
  intro fuel
  induction fuel with
  | zero =>
    intro pf _ h
    exact absurd h (Nat.not_lt_zero _)
  | succ fuel ih =>
    intro pf hInv hpot
    rcases hnext : getNextCoords pf with ⟨o, pf1⟩
    cases o with
    | none =>
      simp only [findPathLoop, hnext]
      simp
    | some tc =>
      by_cases hte : tc = e
      · subst hte
        simp only [findPathLoop, hnext, if_true, ite_true]
        have h1 := (getNextCoords_some hnext).1
        obtain ⟨n, hn⟩ := getTile_isSome_of_mem (hInv.base.cts_sub tc h1)
        have hpm1 : pf1.path_map = pf.path_map := by
          rw [(getNextCoords_some hnext).2.2]
        obtain ⟨p, hp, _⟩ := currentPathFrom_spec hInv.base.pm_inv hn
        rw [hpm1, hp]
        simp
      · simp only [findPathLoop, hnext, if_neg hte]
        have hInv' := inv_expand hInv hnext
        have hpot' := potential_step hInv hnext
        exact ih _ hInv' (by omega)

theorem findPathLoop_run {grid : List (C × T)} {adj : C → List C} {start e : C} :
    ∀ (fuel : Nat) (pf : Pathfinder C) (p : List C), Inv grid adj start pf →
      findPathLoop grid adj e fuel pf = some (some p) →
      PathTo grid adj start p e ∧
        ∀ n : Nat, HopReach grid adj start n e →
          (∀ m, HopReach grid adj start m e → n ≤ m) → p.length = n + 1 := by
  intro fuel
  induction fuel with
  | zero =>
    intro pf p _ h
    cases h
  | succ fuel ih =>
    intro pf p hInv h
    rcases hnext : getNextCoords pf with ⟨o, pf1⟩
    cases o with
    | none =>
      simp only [findPathLoop, hnext] at h
      cases h
    | some tc =>
      by_cases hte : tc = e
      · subst hte
        simp only [findPathLoop, hnext, if_true, ite_true] at h
        have h1 := (getNextCoords_some hnext).1
        obtain ⟨ne1, hn⟩ := getTile_isSome_of_mem (hInv.base.cts_sub tc h1)
        have hpm1 : pf1.path_map = pf.path_map := by
          rw [(getNextCoords_some hnext).2.2]
        obtain ⟨p', hp', hpt, hchain, hmemn⟩ := currentPathFrom_spec hInv.base.pm_inv hn
        rw [hpm1, hp'] at h
        simp only [Option.map_some', Option.some_inj] at h
        subst h
        refine ⟨hpt, ?_⟩
        intro n hrn hmini
        have hminc : ∀ k, CostReach grid adj start k tc → ne1.total_cost ≤ k := by
          intro k hk
          have hp := popped_min hInv hnext k hk
          rw [getNodeD_eq hn] at hp
          exact hp
        obtain ⟨m, hm, hkm⟩ := hopReach_of_costReach (hInv.base.pm_inv.reach tc ne1 hn)
        have hmn : m = n := by
          have h5 := hminc (hopCost n) (costReach_of_hopReach hrn)
          rw [hkm] at h5
          have h6 : m ≤ n := by
            by_contra hc
            exact absurd h5 (not_le_of_lt (hopCost_lt (Nat.lt_of_not_le hc)))
          exact le_antisymm h6 (hmini m hm)
        have hupper : p'.length ≤ n + 1 := by
          refine cost_chain_length p' n ?_ hchain ?_
          · intro x hx
            obtain ⟨nx, hnx⟩ := hmemn x hx
            obtain ⟨mx, _, hmx⟩ := hopReach_of_costReach (hInv.base.pm_inv.reach x nx hnx)
            exact ⟨mx, by rw [getNodeD_eq hnx]; exact hmx⟩
          · intro x hxh
            rw [hpt.head_eq] at hxh
            rw [← Option.some_inj.mp hxh]
            rw [getNodeD_eq hn, hkm, hmn]
        have hlower : n ≤ p'.length - 1 := hmini _ hpt.hopReach
        have hnn : p' ≠ [] := hpt.ne_nil
        have hlen1 : 1 ≤ p'.length := by
          cases hq : p' with
          | nil => exact absurd hq hnn
          | cons a l => simp
        omega
      · simp only [findPathLoop, hnext, if_neg hte] at h
        exact ih _ p (inv_expand hInv hnext) h

theorem findPathLoop_complete {grid : List (C × T)} {adj : C → List C} {start e : C} :
    ∀ (fuel : Nat) (pf : Pathfinder C), Inv grid adj start pf →
      potential grid start pf < fuel → e ∉ pf.searched_coords →
      (∃ k, CostReach grid adj start k e) →
      ∃ p, findPathLoop grid adj e fuel pf = some (some p) := by
  intro fuel
  induction fuel with
  | zero =>
    intro pf _ h
    exact absurd h (Nat.not_lt_zero _)
  | succ fuel ih =>
    intro pf hInv hpot he hreach
    rcases hnext : getNextCoords pf with ⟨o, pf1⟩
    cases o with
    | none =>
      obtain ⟨heq, hcts⟩ := getNextCoords_none hnext
      obtain ⟨k, hk⟩ := hreach
      rcases reach_covered hInv hk with ⟨hs, _⟩ | ⟨y, hy, _⟩
      · exact absurd hs he
      · rw [hcts] at hy
        cases hy
    | some tc =>
      by_cases hte : tc = e
      · subst hte
        have h1 := (getNextCoords_some hnext).1
        obtain ⟨n, hn⟩ := getTile_isSome_of_mem (hInv.base.cts_sub tc h1)
        have hpm1 : pf1.path_map = pf.path_map := by
          rw [(getNextCoords_some hnext).2.2]
        obtain ⟨p, hp, _⟩ := currentPathFrom_spec hInv.base.pm_inv hn
        refine ⟨p, ?_⟩
        simp only [findPathLoop, hnext, if_true, ite_true]
        rw [hpm1, hp]
        rfl
      · have hsea : (expand grid adj pf1 tc
            ((getNodeD pf1.path_map tc).total_cost)).searched_coords =
            insertSet pf.searched_coords tc := by
          rw [expand_searched_eq]
          rw [(getNextCoords_some hnext).2.2]
        have he' : e ∉ (expand grid adj pf1 tc
            ((getNodeD pf1.path_map tc).total_cost)).searched_coords := by
          rw [hsea]
          intro hmem
          rcases mem_insertSet.mp hmem with h2 | h2
          · exact hte h2.symm
          · exact he h2
        obtain ⟨p, hp⟩ := ih _ (inv_expand hInv hnext) (by
          have := potential_step hInv hnext
          omega) he' hreach
        refine ⟨p, ?_⟩
        simp only [findPathLoop, hnext, if_neg hte]
        exact hp

/-! Claim theorems. -/

/-- C1: find_path is claimed to return a path whose total pathfind_cost (sum of
destination tile costs) is minimal among all walks through stored tiles.  The
code never reads pathfind_cost: on sixGrid it returns the two-hop route through
the cost-10 tile, of weight 11, although the walk 0, 2, 3, 4, 5 costs only 4. -/
theorem find_path_ignores_tile_cost :
    findPath sixGrid sixAdj (0 : Int) 5 = some [5, 1, 0] ∧
      pathWeight sixGrid (fun t => t) [5, 1, 0] = 11 ∧
      WalkCost sixGrid sixAdj (fun t => t) 0 4 5 ∧ (4 : Int) < 11 := by
  refine ⟨by decide, by decide, ?_, by decide⟩
  have w2 : WalkCost sixGrid sixAdj (fun t => t) 0 (0 + 1) 2 :=
    WalkCost.step WalkCost.refl (by decide) (by decide)
  have w3 : WalkCost sixGrid sixAdj (fun t => t) 0 (0 + 1 + 1) 3 :=
    WalkCost.step w2 (by decide) (by decide)
  have w4 : WalkCost sixGrid sixAdj (fun t => t) 0 (0 + 1 + 1 + 1) 4 :=
    WalkCost.step w3 (by decide) (by decide)
  have w5 : WalkCost sixGrid sixAdj (fun t => t) 0 (0 + 1 + 1 + 1 + 1) 5 :=
    WalkCost.step w4 (by decide) (by decide)
  have h4 : (4 : Int) = 0 + 1 + 1 + 1 + 1 := by norm_num
  rw [h4]
  exact w5

/-- C2: the candidate cost for a neighbor is claimed to be the popped
coordinate's total_cost plus the neighboring tile's pathfind_cost.  On the
two-tile line grid, the second loop iteration relaxes coordinate 2 from
coordinate 1 (total_cost 1, tile cost 1): the claim predicts 1 + 1 = 2, but the
code stores 3, because find_path passes cost_from_test_coords + 1 and
test_coords adds the source total_cost on top of it. -/
theorem test_coords_double_adds :
    getNode (stepOnce lineGrid lineAdj (stepOnce lineGrid lineAdj
        (initPF (0 : Int)))).path_map 2 = some ⟨3, some 1⟩ ∧ (3 : Int) ≠ 1 + 1 := by
  decide

/-- C3 counterexample: on the two-tile line grid the returned sequence is
[2, 1, 0]: its first element is the end coordinate 2, not the start 0. -/
theorem find_path_dest_first_cex :
    findPath lineGrid lineAdj (0 : Int) 2 = some [2, 1, 0] ∧
      ([2, 1, 0] : List Int).head? ≠ some 0 := by
  decide

/-- C3 (amended): whenever find_path returns Some(path), the sequence is ordered
from destination to source: its first element is end and its last is start. -/
theorem find_path_endpoints {grid : List (C × T)} {adj : C → List C} {start e : C}
    {p : List C} (h : findPath grid adj start e = some p) :
    p.head? = some e ∧ p.getLast? = some start := by
  unfold findPath at h
  cases hres : findPathLoop grid adj e (grid.length + 2) (initPF start) with
  | none =>
    rw [hres] at h
    cases h
  | some o =>
    cases o with
    | none =>
      rw [hres] at h
      cases h
    | some p' =>
      rw [hres] at h
      simp only [Option.getD_some] at h
      have hpe := Option.some_inj.mp h
      subst hpe
      obtain ⟨hpt, _⟩ := findPathLoop_run _ _ p' (inv_init grid adj start) hres
      exact ⟨hpt.head_eq, hpt.last_eq⟩

/-- C3 witness: the general endpoint theorem applied to the concrete line run. -/
theorem find_path_endpoints_witness :
    findPath lineGrid lineAdj (0 : Int) 2 = some [2, 1, 0] ∧
      ([2, 1, 0] : List Int).head? = some 2 ∧
      ([2, 1, 0] : List Int).getLast? = some 0 := by
  have h : findPath lineGrid lineAdj (0 : Int) 2 = some [2, 1, 0] := by decide
  have h2 := find_path_endpoints h
  exact ⟨h, h2.1, h2.2⟩

/-- C4: when no walk through stored tiles connects start to end and the two
differ, find_path returns None: the search can only answer Some after popping
end, and every popped coordinate is reachable through stored tiles. -/
theorem find_path_unreachable_none {grid : List (C × T)} {adj : C → List C} {start e : C}
    (hne : start ≠ e) (h : ∀ n, ¬ HopReach grid adj start n e) :
    findPath grid adj start e = none := by
  unfold findPath
  cases hres : findPathLoop grid adj e (grid.length + 2) (initPF start) with
  | none => rfl
  | some o =>
    cases o with
    | none => rfl
    | some p =>
      exfalso
      obtain ⟨hpt, _⟩ := findPathLoop_run _ _ p (inv_init grid adj start) hres
      exact h _ hpt.hopReach

/-- C4 witness: on the empty grid, coordinate 5 is unreachable from 0 and
find_path returns none. -/
theorem find_path_unreachable_none_witness :
    findPath ([] : List (Int × Int)) lineAdj 0 5 = none := by
  apply find_path_unreachable_none (by decide)
  intro n hn
  rcases hopReach_grid hn with h | h
  · exact absurd h (by decide)
  · exact absurd h (List.not_mem_nil _)

/-- C5: for every grid and coordinate x, find_path(grid, x, x) returns the
one-element path [x], of spec cost 0, whether or not x carries a stored tile. -/
theorem find_path_trivial (grid : List (C × T)) (adj : C → List C) (tileCost : T → Int)
    (x : C) :
    findPath grid adj x x = some [x] ∧ pathWeight grid tileCost [x] = 0 := by
  constructor
  · obtain ⟨p, hp⟩ := findPathLoop_complete (grid.length + 2) (initPF x)
      (inv_init grid adj x) (potential_initPF_lt grid x)
      (by simp [initPF]) ⟨0, CostReach.refl⟩
    obtain ⟨hpt, hlen⟩ := findPathLoop_run _ _ p (inv_init grid adj x) hp
    have h1 : p.length = 1 := hlen 0 HopReach.refl (fun m _ => Nat.zero_le m)
    have hhead : p.head? = some x := hpt.head_eq
    have hp1 : p = [x] := by
      cases p with
      | nil => cases hhead
      | cons a l =>
        cases l with
        | nil =>
          simp only [List.head?_cons, Option.some_inj] at hhead
          rw [hhead]
        | cons b l2 =>
          simp only [List.length_cons] at h1
          omega
    unfold findPath
    rw [hp, hp1]
    rfl
  · rfl

/-- C6: every run of find_path terminates: the search loop performs at most one
iteration per stored tile plus start plus a final empty-frontier check, and the
path reconstruction chain also terminates, so the fuel used by findPath is
never exhausted. -/
theorem find_path_terminates (grid : List (C × T)) (adj : C → List C) (start e : C) :
    findPathLoop grid adj e (grid.length + 2) (initPF start) ≠ none :=
  findPathLoop_total _ _ (inv_init grid adj start) (potential_initPF_lt grid start)

/-- C7: in every state reachable during a find_path run, each coordinate in the
frontier or in the finalized set has a node in the node map, so the internal
unwraps cannot panic. -/
theorem find_path_nodes_present {grid : List (C × T)} {adj : C → List C} {start : C}
    {pf : Pathfinder C} (h : ReachState grid adj start pf) :
    ∀ c, c ∈ pf.coords_to_search ∨ c ∈ pf.searched_coords →
      ∃ n, getNode pf.path_map c = some n := by
  intro c hc
  have hInv := reach_inv h
  rcases hc with h1 | h1
  · exact getTile_isSome_of_mem (hInv.base.cts_sub c h1)
  · exact getTile_isSome_of_mem (hInv.base.searched_sub c h1)

/-- C7 witness: the invariant applied to the initial state of a concrete run. -/
theorem find_path_nodes_present_witness :
    ∃ n, getNode (initPF (0 : Int)).path_map 0 = some n := by
  have hr : ReachState lineGrid lineAdj (0 : Int) (initPF 0) := ReachState.init
  exact find_path_nodes_present hr 0 (Or.inl (by decide))

/-- C8: once a coordinate is finalized it stays finalized and is never put back
into the frontier by any later loop iteration. -/
theorem find_path_no_reopen {grid : List (C × T)} {adj : C → List C} {start : C}
    {pf pf1 : Pathfinder C} {tc : C} (h : ReachState grid adj start pf)
    (hnext : getNextCoords pf = (some tc, pf1)) :
    ∀ c ∈ pf.searched_coords,
      c ∈ (expand grid adj pf1 tc ((getNodeD pf1.path_map tc).total_cost)).searched_coords ∧
        c ∉ (expand grid adj pf1 tc
          ((getNodeD pf1.path_map tc).total_cost)).coords_to_search := by
  intro c hc
  have hInv := reach_inv h
  have hInv' := inv_expand hInv hnext
  have hs : c ∈ (expand grid adj pf1 tc
      ((getNodeD pf1.path_map tc).total_cost)).searched_coords := by
    rw [expand_searched_eq, (getNextCoords_some hnext).2.2]
    exact mem_insertSet.mpr (Or.inr hc)
  exact ⟨hs, fun hmem => hInv'.base.disj c hs hmem⟩

/-- C8 witness: on the line run, coordinate 0 is finalized after the first
iteration and stays out of the frontier through the second. -/
theorem find_path_no_reopen_witness :
    ((0 : Int) ∈ (stepOnce lineGrid lineAdj
        (stepOnce lineGrid lineAdj (initPF 0))).searched_coords) ∧
      ((0 : Int) ∉ (stepOnce lineGrid lineAdj
        (stepOnce lineGrid lineAdj (initPF 0))).coords_to_search) := by
  have h0 : getNextCoords (initPF (0 : Int)) = (some 0, ⟨[], [0], [(0, ⟨0, none⟩)]⟩) := by
    decide
  have hra : ReachState lineGrid lineAdj (0 : Int)
      (⟨[1], [0], [(1, ⟨1, some 0⟩), (0, ⟨0, none⟩)]⟩ : Pathfinder Int) :=
    ReachState.step ReachState.init h0
  have hnext1 : getNextCoords
      (⟨[1], [0], [(1, ⟨1, some 0⟩), (0, ⟨0, none⟩)]⟩ : Pathfinder Int) =
      (some 1, ⟨[], [1, 0], [(1, ⟨1, some 0⟩), (0, ⟨0, none⟩)]⟩) := by decide
  exact find_path_no_reopen hra hnext1 0 (by decide)

/-- C9: on a grid whose stored tiles all have pathfind_cost 1, find_path
returns, for endpoints connected through stored tiles, a path whose number of
elements is the minimum hop count plus one, both endpoints included. -/
theorem find_path_uniform_hops (grid : List (C × T)) (adj : C → List C)
    (tileCost : T → Int) (start e : C) (n : Nat)
    (hcost : ∀ pr ∈ grid, tileCost pr.2 = 1)
    (hr : HopReach grid adj start n e)
    (hmin : ∀ m, HopReach grid adj start m e → n ≤ m) :
    ∃ p, findPath grid adj start e = some p ∧ p.length = n + 1 := by
  obtain ⟨p, hp⟩ := findPathLoop_complete (grid.length + 2) (initPF start)
    (inv_init grid adj start) (potential_initPF_lt grid start)
    (by simp [initPF]) ⟨hopCost n, costReach_of_hopReach hr⟩
  obtain ⟨hpt, hlen⟩ := findPathLoop_run _ _ p (inv_init grid adj start) hp
  refine ⟨p, ?_, hlen n hr hmin⟩
  unfold findPath
  rw [hp]
  rfl

/-- C9 witness: a single cost-1 tile at 1, start 0: minimum hop count 1, the
returned path has two elements. -/
theorem find_path_uniform_hops_witness :
    ∃ p, findPath lineGrid1 lineAdj (0 : Int) 1 = some p ∧ p.length = 1 + 1 := by
  have h1 : HopReach lineGrid1 lineAdj (0 : Int) 1 1 :=
    HopReach.step HopReach.refl (by decide) (by decide)
  have hmin : ∀ m, HopReach lineGrid1 lineAdj (0 : Int) m 1 → 1 ≤ m := by
    intro m hm
    cases m with
    | zero => exact absurd (hopReach_zero hm) (by decide)
    | succ k => exact Nat.succ_le_succ (Nat.zero_le k)
  exact find_path_uniform_hops lineGrid1 lineAdj (fun t => t) 0 1 1 (by decide) h1 hmin

/-- C10: every returned path is a connected walk: all elements except start
carry stored tiles, and each element is adjacent to its successor in the
returned (destination-first) sequence, which is the coordinate it was
discovered from. -/
theorem find_path_walk {grid : List (C × T)} {adj : C → List C} {start e : C}
    {p : List C} (h : findPath grid adj start e = some p) :
    (∀ x ∈ p, x ≠ start → x ∈ keys grid) ∧ List.Chain' (fun a b => a ∈ adj b) p := by
  unfold findPath at h
  cases hres : findPathLoop grid adj e (grid.length + 2) (initPF start) with
  | none =>
    rw [hres] at h
    cases h
  | some o =>
    cases o with
    | none =>
      rw [hres] at h
      cases h
    | some p' =>
      rw [hres] at h
      simp only [Option.getD_some] at h
      have hpe := Option.some_inj.mp h
      subst hpe
      obtain ⟨hpt, _⟩ := findPathLoop_run _ _ p' (inv_init grid adj start) hres
      exact ⟨hpt.grid_mem, hpt.chain_adj⟩

/-- C10 witness: the walk properties of the concrete line run. -/
theorem find_path_walk_witness :
    (∀ x ∈ ([2, 1, 0] : List Int), x ≠ 0 → x ∈ keys lineGrid) ∧
      List.Chain' (fun a b => a ∈ lineAdj b) [2, 1, 0] := by
  have h : findPath lineGrid lineAdj (0 : Int) 2 = some [2, 1, 0] := by decide
  exact find_path_walk h

end Tilemap
